import Mathlib

/-!
# Resource accounting and finalization of the sandbox runtime

A shallow embedding of `src/service_runtime/accounting.c` and
`src/platform/linux/nacl_exit.c`.

* 64-bit machine integers are values of `Int`, wrapped with `wrap64`.
* The global `char accounting[BIG_ENOUGH_STRING]` is a `List Char` of that
  length; a pointer into it is an offset. The C string stored in it is the
  text up to the first NUL.
* A call that does not return normally (a failed `assert`, a write outside
  the array, a conversion with undefined behaviour) is `none`.
* The effects of `Finalizer` are a list of `Effect` values in program order.
-/

set_option autoImplicit false

namespace ZeroVM

/-! ## Machine integers -/

/-- The value of the low 64 bits of `x` read as a two's complement `int64_t`. -/
def wrap64 (x : Int) : Int := (x + 2 ^ 63) % 2 ^ 64 - 2 ^ 63

/-- Conversion of an `int` argument to `size_t` (64 bits). -/
def sizeT (n : Int) : Nat := (n % 2 ^ 64).toNat

/-! ## Text and memory -/

/-- The terminating byte of a C string. -/
def NUL : Char := Char.ofNat 0

/-- Output of the conversion `%ld` for one `int64_t` value. -/
def fmtLd (x : Int) : List Char :=
  if x < 0 then '-' :: Nat.toDigits 10 x.natAbs else Nat.toDigits 10 x.toNat

/-- Output of a format string made of one `%ld` per value, separated by single
spaces (`"%ld %ld %ld %ld"` for four values). -/
def formatLd : List Int → List Char
  | [] => []
  | [x] => fmtLd x
  | x :: y :: rest => fmtLd x ++ ' ' :: formatLd (y :: rest)

/-- Overwrite `data.length` bytes of `mem` starting at offset `off`; `none` when
the write would leave the array. -/
def store (mem : List Char) (off : Nat) (data : List Char) : Option (List Char) :=
  if off + data.length ≤ mem.length then
    some (mem.take off ++ data ++ mem.drop (off + data.length))
  else none

/-- The C string that starts at offset `off`: the bytes before the first NUL. -/
def cstr (mem : List Char) (off : Nat) : List Char :=
  (mem.drop off).takeWhile (fun c => c != NUL)

/-- Length of the C string at `off`; `none` when there is no terminator inside
the array. -/
def strlen (mem : List Char) (off : Nat) : Option Nat :=
  if NUL ∈ mem.drop off then some (cstr mem off).length else none

/-- The call `snprintf(mem + buf, size, fmt, ...)` whose complete output is
`text`: at most `size - 1` bytes of it are written, followed by NUL; nothing is
written when `size` is zero. The result is the length of the complete output. -/
def snprintf (mem : List Char) (buf : Nat) (size : Nat) (text : List Char) :
    Option (Int × List Char) :=
  if size = 0 then some ((text.length : Int), mem)
  else
    match store mem buf (text.take (size - 1) ++ [NUL]) with
    | none => none
    | some mem1 => some ((text.length : Int), mem1)

/-- The call `strncat(mem + dest, src, n)`: at most `n` bytes of `src` and a
NUL are written at the end of the string at `dest`. -/
def strncat (mem : List Char) (dest : Nat) (src : List Char) (n : Nat) :
    Option (List Char) :=
  match strlen mem dest with
  | none => none
  | some len => store mem (dest + len) (src.take n ++ [NUL])

/-! ## Channels -/

/-- Modelled from the spec: `enum ChannelSourceType` is declared in
`mount_channel.h`, which is not among the sources. The three kinds the
aggregation recognizes are named as in `GetChannelsAccounting`;
`ChannelOther` stands for every other enumerator. -/
inductive ChannelSourceType where
  | ChannelRegular
  | ChannelCharacter
  | ChannelTCP
  | ChannelOther (code : Nat)
  deriving DecidableEq

/-- Modelled from the spec: `enum IOLimits` is declared in `api/zvm.h`, which is
not among the sources; the counters are numbered in the order the spec lists
them (GetsCount, GetBytes, PutsCount, PutBytes), followed by their count. -/
def GetsLimit : Nat := 0

/-- Modelled from the spec: second enumerator of `enum IOLimits`. -/
def GetSizeLimit : Nat := 1

/-- Modelled from the spec: third enumerator of `enum IOLimits`. -/
def PutsLimit : Nat := 2

/-- Modelled from the spec: fourth enumerator of `enum IOLimits`. -/
def PutSizeLimit : Nat := 3

/-- Modelled from the spec: number of counters of `enum IOLimits`. -/
def IOLimitsCount : Nat := 4

/-- The fields of `struct ChannelDesc` read by the accounting:
`source` and `int64_t counters[IOLimitsCount]`. -/
structure ChannelDesc where
  source : ChannelSourceType
  counters : List Int
  deriving DecidableEq

/-- The fields of `struct SystemManifest` read by the accounting: the channel
array; `channels_count` is its length. -/
structure SystemManifest where
  channels : List ChannelDesc

/-- The fields of `struct NaClApp` read by the accounting and by the
finalizer. `system_manifest` is a pointer and may be NULL; `heap_end` and
`stack_size` are unsigned 64-bit words. -/
structure NaClApp where
  system_manifest : Option SystemManifest
  heap_end : Nat
  stack_size : Nat
  zvm_state : String
  zvm_code : Int
  handle_signals : Bool

/-- The inner loop `for(j = 0; j < PutSizeLimit; ++j) stats[j] += counters[j];`. -/
def addCounters (stats counters : List Int) : List Int :=
  (List.range PutSizeLimit).foldl
    (fun st j => st.set j (wrap64 (st.getD j 0 + counters.getD j 0))) stats

/-- The outer loop of `GetChannelsAccounting` over the channel array, carrying
`local_stats` and `network_stats`; `none` is the `return 0` of the `default`
branch. -/
def gatherStats : List ChannelDesc → List Int → List Int → Option (List Int × List Int)
  | [], local_stats, network_stats => some (local_stats, network_stats)
  | channel :: rest, local_stats, network_stats =>
    match channel.source with
    | .ChannelRegular => gatherStats rest (addCounters local_stats channel.counters) network_stats
    | .ChannelCharacter => gatherStats rest (addCounters local_stats channel.counters) network_stats
    | .ChannelTCP => gatherStats rest local_stats (addCounters network_stats channel.counters)
    | .ChannelOther _ => none

/-- The eight values passed to the final `snprintf` of `GetChannelsAccounting`. -/
def channelFields (local_stats network_stats : List Int) : List Int :=
  [local_stats.getD GetsLimit 0, local_stats.getD GetSizeLimit 0,
   local_stats.getD PutsLimit 0, local_stats.getD PutSizeLimit 0,
   network_stats.getD GetsLimit 0, network_stats.getD GetSizeLimit 0,
   network_stats.getD PutsLimit 0, network_stats.getD PutSizeLimit 0]

/-- `GetChannelsAccounting(nap, mem + buf, size)`: returns the `int` result and
the memory after the call. -/
def GetChannelsAccounting (nap : NaClApp) (mem : List Char) (buf : Nat) (size : Int) :
    Option (Int × List Char) :=
  match nap.system_manifest with
  | none => none
  | some manifest =>
    if size = 0 then none
    else
      match gatherStats manifest.channels
          (List.replicate IOLimitsCount 0) (List.replicate IOLimitsCount 0) with
      | none => some (0, mem)
      | some (local_stats, network_stats) =>
        snprintf mem buf (sizeT size) (formatLd (channelFields local_stats network_stats))

/-! ## Binary64 arithmetic of the process clock conversion

Only finite values occur. A value is `(-1)^neg * num / den` with `den` a
power of two. Rounding is to nearest, ties to even, as in IEEE 754; the
operands of the accounting are below `2 ^ 64`, far inside the normal range. -/

/-- The integer nearest to `n / d`, ties to the even one. -/
def roundNearestEven (n d : Nat) : Nat :=
  let q := n / d
  let r := n % d
  if 2 * r < d then q
  else if d < 2 * r then q + 1
  else if q % 2 = 0 then q
  else q + 1

/-- The least `s` at or after the given one with `2 ^ 52 * d ≤ n * 2 ^ s`,
searched for at most `fuel` steps. -/
def normUp (n d : Nat) : Nat → Nat → Nat
  | 0, s => s
  | fuel + 1, s => if 2 ^ 52 * d ≤ n * 2 ^ s then s else normUp n d fuel (s + 1)

/-- The least `k` at or after the given one with `n < 2 ^ 53 * d * 2 ^ k`,
searched for at most `fuel` steps. -/
def normDown (n d : Nat) : Nat → Nat → Nat
  | 0, k => k
  | fuel + 1, k => if n < 2 ^ 53 * d * 2 ^ k then k else normDown n d fuel (k + 1)

/-- The binary64 value nearest to `n / d`, as a numerator and a power-of-two
denominator: the quotient is scaled to a 53-bit significand and rounded. -/
def roundBinary64 (n d : Nat) : Nat × Nat :=
  if n = 0 then (0, 1)
  else if n < 2 ^ 53 * d then
    let s := normUp n d 256 0
    (roundNearestEven (n * 2 ^ s) d, 2 ^ s)
  else
    let k := normDown n d 256 0
    (roundNearestEven n (d * 2 ^ k) * 2 ^ k, 1)

/-- A finite binary64 value `(-1)^neg * num / den`. -/
structure Double where
  neg : Bool
  num : Nat
  den : Nat
  deriving DecidableEq

/-- The conversion `(double)t` of a 64-bit integer: `t` rounded to 53
significant bits. -/
def Double.ofInt (t : Int) : Double :=
  let k := normDown t.natAbs 1 64 0
  ⟨decide (t < 0), roundNearestEven t.natAbs (2 ^ k) * 2 ^ k, 1⟩

/-- The quotient `x / y`, or `none` when `y` is zero (the result is then not
finite). -/
def Double.div (x y : Double) : Option Double :=
  if y.num = 0 then none
  else
    let r := roundBinary64 (x.num * y.den) (x.den * y.num)
    some ⟨xor x.neg y.neg, r.1, r.2⟩

/-- The conversion `(int64_t)x`: truncation toward zero, undefined outside the
range of `int64_t`. -/
def Double.toInt64 (x : Double) : Option Int :=
  let m : Int := ((x.num / x.den : Nat) : Int)
  let v : Int := if x.neg then -m else m
  if -(2 : Int) ^ 63 ≤ v ∧ v < 2 ^ 63 then some v else none

/-- The expression `(int64_t)(clock() / (double)(CLOCKS_PER_SEC / 1000))`, for
the value `clock` returned by `clock()`. The inner division is a division of
integers. -/
def realCpu (clock : Int) (CLOCKS_PER_SEC : Nat) : Option Int :=
  match Double.div (Double.ofInt clock) (Double.ofInt ((CLOCKS_PER_SEC / 1000 : Nat) : Int)) with
  | none => none
  | some q => Double.toInt64 q

/-! ## System accounting and the report buffer -/

/-- Modelled from the spec: the macros `BIG_ENOUGH_STRING` and
`DEFAULT_ACCOUNTING` are defined in headers of the runtime that are not among
the sources, and `CLOCKS_PER_SEC` in the C library; the three are parameters
of the model. -/
structure Build where
  BIG_ENOUGH_STRING : Nat
  DEFAULT_ACCOUNTING : List Char
  CLOCKS_PER_SEC : Nat

/-- Modelled from the spec: the value of the macro `DEFAULT_ACCOUNTING` is not
among the sources. The spec documents it as a baseline string that is "never
empty or uninitialized content": a non-empty C string, and one that fits the
array together with its terminator. -/
def Build.baselineDocumented (B : Build) : Prop :=
  B.DEFAULT_ACCOUNTING ≠ [] ∧ (∀ c ∈ B.DEFAULT_ACCOUNTING, c ≠ NUL) ∧
    B.DEFAULT_ACCOUNTING.length < B.BIG_ENOUGH_STRING

instance (B : Build) : Decidable B.baselineDocumented := by
  unfold Build.baselineDocumented
  infer_instance

/-- The initial value of `char accounting[BIG_ENOUGH_STRING] = DEFAULT_ACCOUNTING`:
the bytes of the literal, the rest of the array zero. -/
def accountingInit (B : Build) : List Char :=
  B.DEFAULT_ACCOUNTING ++ List.replicate (B.BIG_ENOUGH_STRING - B.DEFAULT_ACCOUNTING.length) NUL

/-- `ReadSystemAccounting(nap, mem + buf, size)` of the build without `CGROUPS`,
where `clock` is the value returned by `clock()`. -/
def ReadSystemAccounting (B : Build) (nap : NaClApp) (clock : Int)
    (mem : List Char) (buf : Nat) (size : Int) : Option (Int × List Char) :=
  let user_cpu : Int := 0
  let swap_size : Int := 0
  match nap.system_manifest with
  | none => none
  | some _ =>
    if size ≤ 0 then none
    else
      let memory_size : Int := wrap64 ((nap.heap_end + nap.stack_size : Nat) : Int)
      match realCpu clock B.CLOCKS_PER_SEC with
      | none => none
      | some real_cpu =>
        snprintf mem buf (sizeT size) (formatLd [real_cpu, user_cpu, memory_size, swap_size])

/-- `AccountingDtor(nap)` acting on the global array `accounting`. -/
def AccountingDtor (B : Build) (nap : NaClApp) (clock : Int) (accounting : List Char) :
    Option (List Char) :=
  match ReadSystemAccounting B nap clock accounting 0 (B.BIG_ENOUGH_STRING : Int) with
  | none => none
  | some (offset, acc1) =>
    match strncat acc1 0 [' '] 1 with
    | none => none
    | some acc2 =>
      match GetChannelsAccounting nap acc2 offset.toNat ((B.BIG_ENOUGH_STRING : Int) - offset) with
      | none => none
      | some (_, acc3) => some acc3

/-- `GetAccountingInfo()`: the C string held by the global array. -/
def GetAccountingInfo (accounting : List Char) : List Char := cstr accounting 0

/-- The operations of `accounting.c` visible to the rest of the runtime. -/
inductive AccountingOp where
  | Ctor (nap : NaClApp)
  | Dtor (nap : NaClApp) (clock : Int)
  | Info

/-- Effect of one operation on the global array. The body of `AccountingCtor`
is compiled out; `GetAccountingInfo` only reads. -/
def AccountingOp.apply (B : Build) (accounting : List Char) : AccountingOp → Option (List Char)
  | .Ctor _ => some accounting
  | .Dtor nap clock => AccountingDtor B nap clock accounting
  | .Info => some accounting

/-- A sequence of operations, starting from the given contents of the array. -/
def runOps (B : Build) : List AccountingOp → List Char → Option (List Char)
  | [], accounting => some accounting
  | op :: rest, accounting =>
    match op.apply B accounting with
    | none => none
    | some accounting1 => runOps B rest accounting1

/-- Whether an operation is a call of `AccountingDtor`. -/
def AccountingOp.isDtor : AccountingOp → Bool
  | .Dtor _ _ => true
  | _ => false

/-! ## Finalization -/

/-- The externally visible steps of `nacl_exit.c`, one per call that leaves the
file. -/
inductive Effect where
  | Log (msg : String)
  | NaClAppPrintDetails
  | PrintVmmap
  | NaClSignalHandlerFini
  | NaClAllModulesFini
  | SystemManifestDtor
  | ProxyReport
  | Exit (code : Int)
  deriving DecidableEq

/-- `FinalDump(nap)`. -/
def FinalDump (nap : NaClApp) : List Effect :=
  [.Log "exiting -- printing NaClApp details\n", .NaClAppPrintDetails,
   .Log "Dumping vmmap", .PrintVmmap, .Log "Done"]
  ++ (if nap.handle_signals then [.NaClSignalHandlerFini] else [])
  ++ [.NaClAllModulesFini]

/-- `Finalizer()` on the global `gnap`. -/
def Finalizer (gnap : NaClApp) : List Effect :=
  (if gnap.zvm_state ≠ "ok" then FinalDump gnap else [])
  ++ [.SystemManifestDtor, .ProxyReport]

/-- `NaClAbort()`. -/
def NaClAbort (gnap : NaClApp) : List Effect :=
  Finalizer gnap ++ [.Exit gnap.zvm_code]

/-- `NaClExit(err_code)`. -/
def NaClExit (gnap : NaClApp) (err_code : Int) : List Effect :=
  Finalizer gnap ++ [.Exit err_code]

/-! ## The sums of the spec -/

/-- The sum the spec names for the local bucket: counter `j` added up over the
channels of kind Regular or Character, as an unbounded integer. -/
def localSum (cs : List ChannelDesc) (j : Nat) : Int :=
  ((cs.filter (fun ch => decide (ch.source = .ChannelRegular ∨ ch.source = .ChannelCharacter))).map
    (fun ch => ch.counters.getD j 0)).sum

/-- The sum the spec names for the network bucket: counter `j` added up over
the channels of kind TCP, as an unbounded integer. -/
def networkSum (cs : List ChannelDesc) (j : Nat) : Int :=
  ((cs.filter (fun ch => decide (ch.source = .ChannelTCP))).map
    (fun ch => ch.counters.getD j 0)).sum

/-! ## Sample inputs -/

/-- A build with an array of 1024 bytes, an all-zero baseline record and the
`CLOCKS_PER_SEC` of POSIX systems. -/
def sampleBuild : Build := ⟨1024, "0 0 0 0 0 0 0 0 0 0 0 0".toList, 1000000⟩

/-- A table of one Regular and one TCP channel on which no bytes were put. -/
def sampleChannels : List ChannelDesc :=
  [⟨.ChannelRegular, [3, 30, 1, 0]⟩, ⟨.ChannelTCP, [2, 20, 0, 0]⟩]

/-- A sandbox with the sample table and the heap and stack sizes of the spec's
memory example. -/
def sampleApp : NaClApp := ⟨some ⟨sampleChannels⟩, 1048576, 65536, "ok", 0, false⟩

/-- The sample sandbox after more traffic on its Regular channel. -/
def sampleAppLater : NaClApp :=
  ⟨some ⟨[⟨.ChannelRegular, [4, 40, 1, 0]⟩, ⟨.ChannelTCP, [2, 20, 0, 0]⟩]⟩,
    1048576, 65536, "ok", 0, false⟩

/-- The sample sandbox with a third channel of a kind the aggregation does not
recognize. -/
def sampleAppOther : NaClApp :=
  ⟨some ⟨sampleChannels ++ [⟨.ChannelOther 7, [9, 9, 9, 9]⟩]⟩, 1048576, 65536, "ok", 0, false⟩

/-- A sandbox that ends in a state other than "ok", with signal handling on. -/
def sampleAppFaulted : NaClApp := ⟨some ⟨sampleChannels⟩, 1048576, 65536, "signal", 11, true⟩

/-! ## Lemmas: 64-bit sums and the aggregation loops -/

theorem wrap64_add_comm (a x y : Int) :
    wrap64 (wrap64 (a + x) + y) = wrap64 (wrap64 (a + y) + x) := by
  unfold wrap64
  omega

theorem wrap64_range (x : Int) : -(2 : Int) ^ 63 ≤ wrap64 x ∧ wrap64 x < 2 ^ 63 := by
  unfold wrap64
  omega

theorem wrap64_of_range (x : Int) (h1 : -(2 : Int) ^ 63 ≤ x) (h2 : x < 2 ^ 63) : wrap64 x = x := by
  unfold wrap64
  omega

theorem addCounters_four (a b c d : Int) (cs : List Int) :
    addCounters [a, b, c, d] cs
      = [wrap64 (a + cs.getD 0 0), wrap64 (b + cs.getD 1 0), wrap64 (c + cs.getD 2 0), d] := by
  rfl

theorem addCounters_comm (a b c d : Int) (xs ys : List Int) :
    addCounters (addCounters [a, b, c, d] xs) ys = addCounters (addCounters [a, b, c, d] ys) xs := by
  simp only [addCounters_four, wrap64_add_comm]

/-- The outer loop stops with `return 0` as soon as the table holds a channel of
another kind, whatever the accumulators are. -/
theorem gatherStats_unsupported (cs : List ChannelDesc)
    (h : ∃ ch ∈ cs, ∃ code, ch.source = .ChannelOther code) (l n : List Int) :
    gatherStats cs l n = none := by
  induction cs generalizing l n with
  | nil => simp at h
  | cons c rest ih =>
    unfold gatherStats
    cases hc : c.source with
    | ChannelOther code => rfl
    | ChannelRegular =>
      simp only
      apply ih
      obtain ⟨ch, hm, code, hs⟩ := h
      rcases List.mem_cons.mp hm with rfl | hm
      · rw [hc] at hs; cases hs
      · exact ⟨ch, hm, code, hs⟩
    | ChannelCharacter =>
      simp only
      apply ih
      obtain ⟨ch, hm, code, hs⟩ := h
      rcases List.mem_cons.mp hm with rfl | hm
      · rw [hc] at hs; cases hs
      · exact ⟨ch, hm, code, hs⟩
    | ChannelTCP =>
      simp only
      apply ih
      obtain ⟨ch, hm, code, hs⟩ := h
      rcases List.mem_cons.mp hm with rfl | hm
      · rw [hc] at hs; cases hs
      · exact ⟨ch, hm, code, hs⟩

/-- The accumulators keep four entries each, and every entry stays inside the
range of `int64_t` when it starts there. -/
theorem gatherStats_shape (cs : List ChannelDesc) :
    ∀ (a b c d e f g h : Int) (r : List Int × List Int),
      gatherStats cs [a, b, c, d] [e, f, g, h] = some r →
      ∃ a1 b1 c1 e1 f1 g1 : Int, r = ([a1, b1, c1, d], [e1, f1, g1, h]) ∧
        ((-(2 : Int) ^ 63 ≤ a ∧ a < 2 ^ 63) → (-(2 : Int) ^ 63 ≤ a1 ∧ a1 < 2 ^ 63)) ∧
        ((-(2 : Int) ^ 63 ≤ b ∧ b < 2 ^ 63) → (-(2 : Int) ^ 63 ≤ b1 ∧ b1 < 2 ^ 63)) ∧
        ((-(2 : Int) ^ 63 ≤ c ∧ c < 2 ^ 63) → (-(2 : Int) ^ 63 ≤ c1 ∧ c1 < 2 ^ 63)) ∧
        ((-(2 : Int) ^ 63 ≤ e ∧ e < 2 ^ 63) → (-(2 : Int) ^ 63 ≤ e1 ∧ e1 < 2 ^ 63)) ∧
        ((-(2 : Int) ^ 63 ≤ f ∧ f < 2 ^ 63) → (-(2 : Int) ^ 63 ≤ f1 ∧ f1 < 2 ^ 63)) ∧
        ((-(2 : Int) ^ 63 ≤ g ∧ g < 2 ^ 63) → (-(2 : Int) ^ 63 ≤ g1 ∧ g1 < 2 ^ 63)) := by
  induction cs with
  | nil =>
    intro a b c d e f g h r hr
    simp only [gatherStats, Option.some.injEq] at hr
    exact ⟨a, b, c, e, f, g, hr.symm, id, id, id, id, id, id⟩
  | cons ch rest ih =>
    intro a b c d e f g h r hr
    unfold gatherStats at hr
    cases hc : ch.source with
    | ChannelOther code => rw [hc] at hr; cases hr
    | ChannelRegular =>
      rw [hc] at hr
      simp only [addCounters_four] at hr
      obtain ⟨a1, b1, c1, e1, f1, g1, hr1, ha, hb, hcc, he, hf, hg⟩ := ih _ _ _ _ _ _ _ _ r hr
      exact ⟨a1, b1, c1, e1, f1, g1, hr1, fun _ => ha (wrap64_range _),
        fun _ => hb (wrap64_range _), fun _ => hcc (wrap64_range _), he, hf, hg⟩
    | ChannelCharacter =>
      rw [hc] at hr
      simp only [addCounters_four] at hr
      obtain ⟨a1, b1, c1, e1, f1, g1, hr1, ha, hb, hcc, he, hf, hg⟩ := ih _ _ _ _ _ _ _ _ r hr
      exact ⟨a1, b1, c1, e1, f1, g1, hr1, fun _ => ha (wrap64_range _),
        fun _ => hb (wrap64_range _), fun _ => hcc (wrap64_range _), he, hf, hg⟩
    | ChannelTCP =>
      rw [hc] at hr
      simp only [addCounters_four] at hr
      obtain ⟨a1, b1, c1, e1, f1, g1, hr1, ha, hb, hcc, he, hf, hg⟩ := ih _ _ _ _ _ _ _ _ r hr
      exact ⟨a1, b1, c1, e1, f1, g1, hr1, ha, hb, hcc, fun _ => he (wrap64_range _),
        fun _ => hf (wrap64_range _), fun _ => hg (wrap64_range _)⟩

/-- The outer loop gives the same result on every rearrangement of the table. -/
theorem gatherStats_perm {cs1 cs2 : List ChannelDesc} (hp : cs1.Perm cs2) :
    ∀ (a b c d e f g h : Int),
      gatherStats cs1 [a, b, c, d] [e, f, g, h] = gatherStats cs2 [a, b, c, d] [e, f, g, h] := by
  induction hp with
  | nil => intros; rfl
  | cons x _ ih =>
    intro a b c d e f g h
    unfold gatherStats
    cases hx : x.source <;> simp only [addCounters_four, ih]
  | swap x y l =>
    intro a b c d e f g h
    cases hx : x.source <;> cases hy : y.source <;>
      simp only [gatherStats, hx, hy, addCounters_four, wrap64_add_comm]
  | trans _ _ ih1 ih2 =>
    intro a b c d e f g h
    rw [ih1, ih2]

theorem wrap64_wrap64_add (x y : Int) : wrap64 (wrap64 x + y) = wrap64 (x + y) := by
  unfold wrap64
  omega

theorem localSum_cons_local (ch : ChannelDesc) (rest : List ChannelDesc) (j : Nat)
    (h : ch.source = .ChannelRegular ∨ ch.source = .ChannelCharacter) :
    localSum (ch :: rest) j = ch.counters.getD j 0 + localSum rest j := by
  simp [localSum, List.filter_cons, h]

theorem localSum_cons_network (ch : ChannelDesc) (rest : List ChannelDesc) (j : Nat)
    (h : ch.source = .ChannelTCP) : localSum (ch :: rest) j = localSum rest j := by
  simp [localSum, List.filter_cons, h]

theorem networkSum_cons_local (ch : ChannelDesc) (rest : List ChannelDesc) (j : Nat)
    (h : ch.source = .ChannelRegular ∨ ch.source = .ChannelCharacter) :
    networkSum (ch :: rest) j = networkSum rest j := by
  rcases h with h | h <;> simp [networkSum, List.filter_cons, h]

theorem networkSum_cons_network (ch : ChannelDesc) (rest : List ChannelDesc) (j : Nat)
    (h : ch.source = .ChannelTCP) :
    networkSum (ch :: rest) j = ch.counters.getD j 0 + networkSum rest j := by
  simp [networkSum, List.filter_cons, h]

/-- What the two loops compute on a table of recognized kinds, from
accumulators inside the range of `int64_t`: the first three entries of each
bucket grow by the spec's sums, wrapped to 64 bits; the fourth entries, the
PutSizeLimit ones, stay as they were. -/
theorem gatherStats_sums_from (cs : List ChannelDesc)
    (hall : ∀ ch ∈ cs, ∀ code, ch.source ≠ .ChannelOther code) :
    ∀ (a b c d e f g h : Int),
      (-(2 : Int) ^ 63 ≤ a ∧ a < 2 ^ 63) → (-(2 : Int) ^ 63 ≤ b ∧ b < 2 ^ 63) →
      (-(2 : Int) ^ 63 ≤ c ∧ c < 2 ^ 63) → (-(2 : Int) ^ 63 ≤ e ∧ e < 2 ^ 63) →
      (-(2 : Int) ^ 63 ≤ f ∧ f < 2 ^ 63) → (-(2 : Int) ^ 63 ≤ g ∧ g < 2 ^ 63) →
      gatherStats cs [a, b, c, d] [e, f, g, h]
        = some ([wrap64 (a + localSum cs 0), wrap64 (b + localSum cs 1),
                  wrap64 (c + localSum cs 2), d],
                [wrap64 (e + networkSum cs 0), wrap64 (f + networkSum cs 1),
                  wrap64 (g + networkSum cs 2), h]) := by
  induction cs with
  | nil =>
    intro a b c d e f g h ha hb hc he hf hg
    simp only [gatherStats, localSum, networkSum, List.filter_nil, List.map_nil, List.sum_nil,
      add_zero]
    rw [wrap64_of_range a ha.1 ha.2, wrap64_of_range b hb.1 hb.2, wrap64_of_range c hc.1 hc.2,
      wrap64_of_range e he.1 he.2, wrap64_of_range f hf.1 hf.2, wrap64_of_range g hg.1 hg.2]
  | cons ch rest ih =>
    intro a b c d e f g h ha hb hc he hf hg
    have ih1 := ih (fun x hx => hall x (List.mem_cons_of_mem _ hx))
    unfold gatherStats
    cases hs : ch.source with
    | ChannelOther code => exact absurd hs (hall ch (List.mem_cons_self _ _) code)
    | ChannelRegular =>
      simp only [addCounters_four]
      rw [ih1 _ _ _ _ _ _ _ _ (wrap64_range _) (wrap64_range _) (wrap64_range _) he hf hg]
      simp only [localSum_cons_local ch rest _ (Or.inl hs),
        networkSum_cons_local ch rest _ (Or.inl hs), wrap64_wrap64_add, add_assoc]
    | ChannelCharacter =>
      simp only [addCounters_four]
      rw [ih1 _ _ _ _ _ _ _ _ (wrap64_range _) (wrap64_range _) (wrap64_range _) he hf hg]
      simp only [localSum_cons_local ch rest _ (Or.inr hs),
        networkSum_cons_local ch rest _ (Or.inr hs), wrap64_wrap64_add, add_assoc]
    | ChannelTCP =>
      simp only [addCounters_four]
      rw [ih1 _ _ _ _ _ _ _ _ ha hb hc (wrap64_range _) (wrap64_range _) (wrap64_range _)]
      simp only [localSum_cons_network ch rest _ hs,
        networkSum_cons_network ch rest _ hs, wrap64_wrap64_add, add_assoc]

/-- The eight values `GetChannelsAccounting` formats for a table of recognized
kinds: for the counters Gets, GetSize and Puts the spec's sums in 64-bit
arithmetic, for PutSize always zero. -/
theorem gatherStats_sums (cs : List ChannelDesc)
    (hall : ∀ ch ∈ cs, ∀ code, ch.source ≠ .ChannelOther code) :
    (gatherStats cs (List.replicate IOLimitsCount 0) (List.replicate IOLimitsCount 0)).map
        (fun r => channelFields r.1 r.2)
      = some [wrap64 (localSum cs GetsLimit), wrap64 (localSum cs GetSizeLimit),
              wrap64 (localSum cs PutsLimit), 0,
              wrap64 (networkSum cs GetsLimit), wrap64 (networkSum cs GetSizeLimit),
              wrap64 (networkSum cs PutsLimit), 0] := by
  have h0 : (-(2 : Int) ^ 63 ≤ 0 ∧ (0 : Int) < 2 ^ 63) := by decide
  rw [show List.replicate IOLimitsCount (0 : Int) = [0, 0, 0, 0] from rfl,
    gatherStats_sums_from cs hall 0 0 0 0 0 0 0 0 h0 h0 h0 h0 h0 h0]
  simp [channelFields, GetsLimit, GetSizeLimit, PutsLimit, PutSizeLimit]

/-! ## Lemmas: formatted text -/

theorem digitChar_ne_NUL : ∀ d < 10, Nat.digitChar d ≠ NUL := by
  decide

theorem toDigitsCore_ne_NUL (fuel : Nat) :
    ∀ (n : Nat) (ds : List Char), (∀ c ∈ ds, c ≠ NUL) →
      ∀ c ∈ Nat.toDigitsCore 10 fuel n ds, c ≠ NUL := by
  induction fuel with
  | zero => intro n ds h c hc; exact h c (by simpa [Nat.toDigitsCore] using hc)
  | succ f ih =>
    intro n ds h c hc
    have hds : ∀ c ∈ Nat.digitChar (n % 10) :: ds, c ≠ NUL := by
      intro c hc
      rcases List.mem_cons.mp hc with rfl | hc
      · exact digitChar_ne_NUL _ (Nat.mod_lt _ (by decide))
      · exact h c hc
    simp only [Nat.toDigitsCore] at hc
    split at hc
    · exact hds c hc
    · exact ih _ _ hds c hc

theorem fmtLd_ne_NUL (x : Int) : ∀ c ∈ fmtLd x, c ≠ NUL := by
  intro c hc
  unfold fmtLd at hc
  split at hc
  · rcases List.mem_cons.mp hc with rfl | hc
    · decide
    · exact toDigitsCore_ne_NUL _ _ [] (by simp) c hc
  · exact toDigitsCore_ne_NUL _ _ [] (by simp) c hc

theorem formatLd_ne_NUL : ∀ (xs : List Int), ∀ c ∈ formatLd xs, c ≠ NUL
  | [] => by intro c hc; simp [formatLd] at hc
  | [x] => by intro c hc; exact fmtLd_ne_NUL x c (by simpa [formatLd] using hc)
  | x :: y :: rest => by
    intro c hc
    simp only [formatLd, List.mem_append, List.mem_cons] at hc
    rcases hc with hc | rfl | hc
    · exact fmtLd_ne_NUL x c hc
    · decide
    · exact formatLd_ne_NUL (y :: rest) c hc

theorem toDigits_length_le (n : Nat) (h : n < 10 ^ 19) : (Nat.toDigits 10 n).length ≤ 19 :=
  Nat.toDigitsCore_length 10 (by decide) (n + 1) n 19 h (by decide)

/-- A value of `int64_t` prints in at most twenty characters. -/
theorem fmtLd_length (x : Int) (h1 : -(2 : Int) ^ 63 ≤ x) (h2 : x < 2 ^ 63) :
    (fmtLd x).length ≤ 20 := by
  unfold fmtLd
  split
  · have : (Nat.toDigits 10 x.natAbs).length ≤ 19 := toDigits_length_le _ (by omega)
    simp only [List.length_cons]
    omega
  · have : (Nat.toDigits 10 x.toNat).length ≤ 19 := toDigits_length_le _ (by omega)
    omega

theorem formatLd_length : ∀ (x : Int) (xs : List Int),
    (∀ y ∈ x :: xs, -(2 : Int) ^ 63 ≤ y ∧ y < 2 ^ 63) →
    (formatLd (x :: xs)).length + 1 ≤ 21 * (xs.length + 1)
  | x, [] => by
    intro h
    have := fmtLd_length x (h x (by simp)).1 (h x (by simp)).2
    simp only [formatLd, List.length_nil]
    omega
  | x, y :: rest => by
    intro h
    have hx := fmtLd_length x (h x (by simp)).1 (h x (by simp)).2
    have ih := formatLd_length y rest (fun z hz => h z (List.mem_cons_of_mem _ hz))
    simp only [formatLd, List.length_append, List.length_cons] at ih ⊢
    omega

/-! ## Lemmas: the report buffer -/

theorem store_length (mem : List Char) (off : Nat) (data m : List Char)
    (h : store mem off data = some m) : m.length = mem.length := by
  unfold store at h
  split at h
  · cases h
    simp only [List.length_append, List.length_take, List.length_drop]
    omega
  · cases h

/-- A write just behind a known prefix replaces the start of what follows it. -/
theorem store_after (pre rest data : List Char) (h : data.length ≤ rest.length) :
    store (pre ++ rest) pre.length data = some (pre ++ data ++ rest.drop data.length) := by
  unfold store
  rw [if_pos (by simp only [List.length_append]; omega)]
  simp [List.drop_append]

/-- The C string behind a prefix ends at the first NUL after it. -/
theorem cstr_after (pre text rest : List Char) (h : ∀ c ∈ text, c ≠ NUL) :
    cstr (pre ++ text ++ NUL :: rest) pre.length = text := by
  unfold cstr
  rw [List.append_assoc, List.drop_left]
  rw [List.takeWhile_append_of_pos (by intro a ha; simpa using h a ha)]
  simp [List.takeWhile]

theorem strlen_after (pre text rest : List Char) (h : ∀ c ∈ text, c ≠ NUL) :
    strlen (pre ++ text ++ NUL :: rest) pre.length = some text.length := by
  unfold strlen
  rw [cstr_after pre text rest h]
  rw [if_pos]
  rw [List.append_assoc, List.drop_left]
  simp

theorem length_of_store_after (pre data rest : List Char) (h : data.length ≤ rest.length) :
    (pre ++ data ++ rest.drop data.length).length = (pre ++ rest).length := by
  simp only [List.length_append, List.length_drop]
  omega

theorem sizeT_natCast (n : Nat) (h : n < 2 ^ 64) : sizeT (n : Int) = n := by
  unfold sizeT
  omega

/-- A `snprintf` whose output fits: the text and its terminator replace the
bytes behind the prefix. -/
theorem snprintf_fit (pre rest text : List Char) (size : Nat)
    (h1 : text.length < size) (h2 : text.length + 1 ≤ rest.length) :
    snprintf (pre ++ rest) pre.length size text
      = some ((text.length : Int), pre ++ text ++ NUL :: rest.drop (text.length + 1)) := by
  unfold snprintf
  rw [if_neg (by omega), List.take_of_length_le (by omega)]
  rw [store_after pre rest (text ++ [NUL]) (by simpa using h2)]
  simp

theorem toInt64_range (x : Double) (r : Int) (h : x.toInt64 = some r) :
    -(2 : Int) ^ 63 ≤ r ∧ r < 2 ^ 63 := by
  obtain ⟨neg, num, den⟩ := x
  cases neg <;>
    simp only [Double.toInt64, Bool.false_eq_true, if_false, if_true,
      Option.ite_none_right_eq_some, Option.some.injEq] at h <;>
    (obtain ⟨h1, rfl⟩ := h; exact h1)

theorem realCpu_range (clock : Int) (cps : Nat) (r : Int) (h : realCpu clock cps = some r) :
    -(2 : Int) ^ 63 ≤ r ∧ r < 2 ^ 63 := by
  unfold realCpu at h
  split at h
  · cases h
  · exact toInt64_range _ _ h

theorem systemText_length (r m : Int) (hr : -(2 : Int) ^ 63 ≤ r ∧ r < 2 ^ 63) :
    (formatLd [r, 0, wrap64 m, 0]).length + 1 ≤ 84 := by
  have := formatLd_length r [0, wrap64 m, 0] (by
    intro y hy
    simp only [List.mem_cons, List.mem_singleton, List.not_mem_nil, or_false] at hy
    rcases hy with rfl | rfl | rfl | rfl
    · exact hr
    · decide
    · exact wrap64_range m
    · decide)
  simpa using this

theorem channelText_length (cs : List ChannelDesc) (l n : List Int)
    (h : gatherStats cs (List.replicate IOLimitsCount 0) (List.replicate IOLimitsCount 0)
      = some (l, n)) :
    (formatLd (channelFields l n)).length + 1 ≤ 168 := by
  have h0 : (-(2 : Int) ^ 63 ≤ 0 ∧ (0 : Int) < 2 ^ 63) := by decide
  obtain ⟨a, b, c, e, f, g, hr, ha, hb, hc, he, hf, hg⟩ :=
    gatherStats_shape cs 0 0 0 0 0 0 0 0 (l, n) h
  cases hr
  have := formatLd_length a [b, c, 0, e, f, g, 0] (by
    intro y hy
    simp only [List.mem_cons, List.mem_singleton, List.not_mem_nil, or_false] at hy
    rcases hy with rfl | rfl | rfl | rfl | rfl | rfl | rfl | rfl
    · exact ha h0
    · exact hb h0
    · exact hc h0
    · exact h0
    · exact he h0
    · exact hf h0
    · exact hg h0
    · exact h0)
  simpa [channelFields, GetsLimit, GetSizeLimit, PutsLimit, PutSizeLimit] using this

/-- The text one pass of `AccountingDtor` leaves in the array: the system
fields, directly followed by the channel fields, or by a single space when the
channel pass gave up. The previous contents of the array play no part. -/
theorem AccountingDtor_text (B : Build) (nap : NaClApp) (clock : Int) (acc : List Char)
    (manifest : SystemManifest) (r : Int)
    (hm : nap.system_manifest = some manifest)
    (hlen : acc.length = B.BIG_ENOUGH_STRING)
    (hlo : 251 ≤ B.BIG_ENOUGH_STRING) (hhi : B.BIG_ENOUGH_STRING < 2 ^ 31)
    (hr : realCpu clock B.CLOCKS_PER_SEC = some r) :
    ∃ acc1, AccountingDtor B nap clock acc = some acc1 ∧
      acc1.length = B.BIG_ENOUGH_STRING ∧
      GetAccountingInfo acc1
        = formatLd [r, 0, wrap64 ((nap.heap_end + nap.stack_size : Nat) : Int), 0]
          ++ (match gatherStats manifest.channels
                (List.replicate IOLimitsCount 0) (List.replicate IOLimitsCount 0) with
              | none => [' ']
              | some (l, n) => formatLd (channelFields l n)) := by
  obtain ⟨cap, dflt, cps⟩ := B
  simp only at hlen hlo hhi hr ⊢
  generalize hS : formatLd [r, 0, wrap64 ((nap.heap_end + nap.stack_size : Nat) : Int), 0] = S
  have hSlen : S.length + 1 ≤ 84 := by
    rw [← hS]; exact systemText_length r _ (realCpu_range _ _ _ hr)
  have hSnul : ∀ c ∈ S, c ≠ NUL := by rw [← hS]; exact formatLd_ne_NUL _
  -- first call: the system fields
  have e1 : ReadSystemAccounting ⟨cap, dflt, cps⟩ nap clock acc 0 (cap : Int)
      = some ((S.length : Int), S ++ NUL :: acc.drop (S.length + 1)) := by
    unfold ReadSystemAccounting
    simp only [hm, hr, hS]
    rw [if_neg (by omega), sizeT_natCast cap (by omega)]
    have := snprintf_fit [] acc S cap (by omega) (by omega)
    simpa using this
  -- second call: the separator
  have e2 : strncat (S ++ NUL :: acc.drop (S.length + 1)) 0 [' '] 1
      = some (S ++ [' ', NUL] ++ (NUL :: acc.drop (S.length + 1)).drop 2) := by
    unfold strncat
    have hl := strlen_after [] S (acc.drop (S.length + 1)) hSnul
    simp only [List.nil_append, List.length_nil] at hl
    rw [hl]
    have := store_after S (NUL :: acc.drop (S.length + 1)) [' ', NUL]
      (by simp only [List.length_cons, List.length_drop, List.length_nil]; omega)
    simpa using this
  generalize hR : (NUL :: acc.drop (S.length + 1)).drop 2 = R at e2
  have hRlen : R.length = cap - S.length - 2 := by
    rw [← hR]
    simp only [List.length_drop, List.length_cons]
    omega
  unfold AccountingDtor
  simp only [e1, e2]
  -- third call: the channel fields
  unfold GetChannelsAccounting
  simp only [hm]
  rw [if_neg (by omega)]
  cases hg : gatherStats manifest.channels
      (List.replicate IOLimitsCount 0) (List.replicate IOLimitsCount 0) with
  | none =>
    refine ⟨_, rfl, ?_, ?_⟩
    · simp only [List.length_append, List.length_cons, List.length_nil, hRlen]
      omega
    · unfold GetAccountingInfo
      have := cstr_after [] (S ++ [' ']) R (by
        intro c hc
        rcases List.mem_append.mp hc with hc | hc
        · exact hSnul c hc
        · simp only [List.mem_singleton] at hc
          rw [hc]; decide)
      simpa using this
  | some ln =>
    obtain ⟨l, n⟩ := ln
    simp only
    generalize hC : formatLd (channelFields l n) = C
    have hClen : C.length + 1 ≤ 168 := by
      rw [← hC]; exact channelText_length _ l n hg
    have hCnul : ∀ c ∈ C, c ≠ NUL := by rw [← hC]; exact formatLd_ne_NUL _
    have hsz : sizeT ((cap : Int) - (S.length : Int)) = cap - S.length := by
      unfold sizeT
      omega
    have e3 := snprintf_fit S ([' ', NUL] ++ R) C (cap - S.length) (by omega)
      (by simp only [List.length_append, List.length_cons, List.length_nil, hRlen]; omega)
    simp only [Int.toNat_ofNat, hsz, List.append_assoc] at e3 ⊢
    rw [e3]
    refine ⟨_, rfl, ?_, ?_⟩
    · simp only [List.length_append, List.length_cons, List.length_drop, List.length_nil, hRlen]
      omega
    · unfold GetAccountingInfo
      have := cstr_after [] (S ++ C) (([' ', NUL] ++ R).drop (C.length + 1)) (by
        intro c hc
        rcases List.mem_append.mp hc with hc | hc
        · exact hSnul c hc
        · exact hCnul c hc)
      simpa using this

/-! ## Lemmas: the clock conversion -/

theorem roundNearestEven_one (n : Nat) : roundNearestEven n 1 = n := by
  simp [roundNearestEven, Nat.mod_one]

theorem roundNearestEven_ge (n d : Nat) : n / d ≤ roundNearestEven n d := by
  unfold roundNearestEven
  simp only
  split_ifs <;> omega

/-- Rounding goes up only from the upper half of the interval. -/
theorem roundNearestEven_cases (n d : Nat) :
    roundNearestEven n d = n / d ∨ (roundNearestEven n d = n / d + 1 ∧ d ≤ 2 * (n % d)) := by
  unfold roundNearestEven
  simp only
  split_ifs <;> first | (left; rfl) | (right; exact ⟨rfl, by omega⟩)

/-- The upward search returns an exponent with the wanted property when one lies
within the fuel. -/
theorem normUp_spec (n d : Nat) (fuel : Nat) :
    ∀ s, (∃ s0, s ≤ s0 ∧ s0 < s + fuel ∧ 2 ^ 52 * d ≤ n * 2 ^ s0) →
      2 ^ 52 * d ≤ n * 2 ^ (normUp n d fuel s) := by
  induction fuel with
  | zero => intro s ⟨s0, h1, h2, _⟩; omega
  | succ f ih =>
    intro s ⟨s0, h1, h2, h3⟩
    unfold normUp
    split_ifs with h
    · exact h
    · apply ih
      refine ⟨s0, ?_, by omega, h3⟩
      rcases Nat.eq_or_lt_of_le h1 with rfl | hlt
      · exact absurd h3 h
      · omega

/-- The downward search never skips an exponent with the wanted property. -/
theorem normDown_min (n d : Nat) (fuel : Nat) :
    ∀ s i, s ≤ i → i < normDown n d fuel s → ¬ n < 2 ^ 53 * d * 2 ^ i := by
  induction fuel with
  | zero => intro s i h1 h2; simp only [normDown] at h2; omega
  | succ f ih =>
    intro s i h1 h2
    unfold normDown at h2
    split_ifs at h2 with h
    · omega
    · rcases Nat.eq_or_lt_of_le h1 with rfl | hlt
      · exact h
      · exact ih (s + 1) i hlt h2

theorem normDown_ge (n d : Nat) (fuel : Nat) : ∀ s, s ≤ normDown n d fuel s := by
  induction fuel with
  | zero => intro s; simp [normDown]
  | succ f ih =>
    intro s
    unfold normDown
    split_ifs
    · exact le_refl s
    · exact le_trans (Nat.le_succ s) (ih (s + 1))

/-- Integers below `2 ^ 53` convert exactly. -/
theorem ofInt_exact (t : Nat) (h : t < 2 ^ 53) : Double.ofInt (t : Int) = ⟨false, t, 1⟩ := by
  have hk : normDown t 1 64 0 = 0 := by
    unfold normDown
    rw [if_pos (by omega)]
  unfold Double.ofInt
  simp only [Int.natAbs_ofNat, hk, pow_zero, roundNearestEven_one, mul_one]
  congr 1

theorem roundNearestEven_le (n d : Nat) : roundNearestEven n d ≤ n / d + 1 := by
  rcases roundNearestEven_cases n d with h | ⟨h, _⟩ <;> omega

/-- Integers from `2 ^ 53` on convert to a value that is again at least `2 ^ 53`,
and at most twice the integer. -/
theorem ofInt_large (k : Nat) (h : 2 ^ 53 ≤ k) :
    ∃ y, Double.ofInt (k : Int) = ⟨false, y, 1⟩ ∧ 2 ^ 53 ≤ y ∧ y ≤ 2 * k := by
  refine ⟨roundNearestEven k (2 ^ normDown k 1 64 0) * 2 ^ normDown k 1 64 0, ?_, ?_⟩
  · unfold Double.ofInt
    simp only [Int.natAbs_ofNat]
    congr 1
  · generalize hj : normDown k 1 64 0 = j
    have hj1 : 1 ≤ j := by
      by_contra hc
      have hj0 : j = 0 := by omega
      have : normDown k 1 64 0 = 0 := by rw [hj, hj0]
      unfold normDown at this
      split_ifs at this with h0
      · omega
      · have := normDown_ge k 1 63 (0 + 1)
        omega
    have hmin := normDown_min k 1 64 0 (j - 1) (Nat.zero_le _) (by omega)
    have hpow : (2 : Nat) ^ j = 2 * 2 ^ (j - 1) := by
      conv_lhs => rw [show j = (j - 1) + 1 by omega]
      rw [pow_succ]; ring
    have hp : 0 < (2 : Nat) ^ (j - 1) := pow_pos (by decide) _
    have hk2 : 2 ^ 52 * 2 ^ j ≤ k := by
      rw [hpow]
      have : 2 ^ 53 * 1 * 2 ^ (j - 1) ≤ k := Nat.le_of_not_lt hmin
      calc 2 ^ 52 * (2 * 2 ^ (j - 1)) = 2 ^ 53 * 1 * 2 ^ (j - 1) := by ring
        _ ≤ k := this
    have hq : 2 ^ 52 ≤ k / 2 ^ j := (Nat.le_div_iff_mul_le (pow_pos (by decide) _)).mpr hk2
    have hr := roundNearestEven_ge k (2 ^ j)
    have h2j : 2 ≤ 2 ^ j := by
      rw [hpow]; omega
    have hD : 2 ^ j ≤ k := le_trans (Nat.le_mul_of_pos_left _ (by norm_num)) hk2
    constructor
    · calc 2 ^ 53 = 2 ^ 52 * 2 := by norm_num
        _ ≤ 2 ^ 52 * 2 ^ j := Nat.mul_le_mul_left _ h2j
        _ ≤ roundNearestEven k (2 ^ j) * 2 ^ j := Nat.mul_le_mul_right _ (le_trans hq hr)
    · calc roundNearestEven k (2 ^ j) * 2 ^ j ≤ (k / 2 ^ j + 1) * 2 ^ j :=
            Nat.mul_le_mul_right _ (roundNearestEven_le _ _)
        _ = k / 2 ^ j * 2 ^ j + 2 ^ j := by ring
        _ ≤ k + k := Nat.add_le_add (Nat.div_mul_le_self _ _) hD
        _ = 2 * k := by ring

/-- The quotient of an integer below `2 ^ 53` by a positive integer, rounded
to a 53-bit significand at any scale `p` that reaches `2 ^ 52`, has the integer
quotient as its integral part. -/
theorem scaled_quotient (t y p : Nat) (ht : t < 2 ^ 53) (hy : 0 < y) (hp : 0 < p)
    (hs : 2 ^ 52 * y ≤ t * p) :
    roundNearestEven (t * p) y / p = t / y := by
  have hlo0 : t / y * y ≤ t := Nat.div_mul_le_self t y
  have hhi0 : t < y * (t / y + 1) := Nat.lt_mul_div_succ t hy
  have hyp : y < 2 * p := by
    have h1 : 2 ^ 52 * y < 2 ^ 52 * (2 * p) := by
      calc 2 ^ 52 * y ≤ t * p := hs
        _ < 2 ^ 53 * p := Nat.mul_lt_mul_of_pos_right ht hp
        _ = 2 ^ 52 * (2 * p) := by ring
    exact Nat.lt_of_mul_lt_mul_left h1
  have hdm := Nat.div_add_mod (t * p) y
  have hr : t * p % y < y := Nat.mod_lt _ hy
  have hqlo : t / y * p ≤ t * p / y := by
    rw [Nat.le_div_iff_mul_le hy]
    calc t / y * p * y = (t / y * y) * p := by ring
      _ ≤ t * p := Nat.mul_le_mul_right _ hlo0
  have hN : t * p + p ≤ (t / y + 1) * p * y := by
    calc t * p + p = (t + 1) * p := by ring
      _ ≤ (y * (t / y + 1)) * p := Nat.mul_le_mul_right _ hhi0
      _ = (t / y + 1) * p * y := by ring
  have hqhi : t * p / y < (t / y + 1) * p := by
    rw [Nat.div_lt_iff_lt_mul hy]
    omega
  apply Nat.div_eq_of_lt_le
  · exact le_trans hqlo (roundNearestEven_ge _ _)
  · rcases roundNearestEven_cases (t * p) y with h | ⟨h, h2⟩
    · rw [h]; exact hqhi
    · rw [h]
      by_contra hc
      have heq : t * p / y + 1 = (t / y + 1) * p := by omega
      have h3 : y * (t * p / y) + y = (t / y + 1) * p * y := by
        calc y * (t * p / y) + y = (t * p / y + 1) * y := by ring
          _ = (t / y + 1) * p * y := by rw [heq]
      omega

/-- The quotient of two exactly represented non-negative integers, converted
back to `int64_t`, is the integer quotient when the dividend is below `2 ^ 53`. -/
theorem div_toInt64 (t y : Nat) (ht : t < 2 ^ 53) (hy : 0 < y) (hy2 : y < 2 ^ 64) :
    ∃ q, Double.div ⟨false, t, 1⟩ ⟨false, y, 1⟩ = some q ∧
      q.toInt64 = some ((t / y : Nat) : Int) := by
  have hq : t / y < 2 ^ 53 := lt_of_le_of_lt (Nat.div_le_self _ _) ht
  unfold Double.div
  simp only [if_neg (Nat.pos_iff_ne_zero.mp hy), mul_one, one_mul, Bool.xor_false]
  refine ⟨_, rfl, ?_⟩
  unfold roundBinary64
  by_cases h0 : t = 0
  · subst h0
    simp [Double.toInt64]
  · have hlt : t < 2 ^ 53 * y := lt_of_lt_of_le ht (Nat.le_mul_of_pos_right _ hy)
    simp only [if_neg h0, if_pos hlt]
    have hs : 2 ^ 52 * y ≤ t * 2 ^ normUp t y 256 0 := by
      apply normUp_spec
      refine ⟨200, Nat.zero_le _, by omega, ?_⟩
      have h1 : 2 ^ 52 * y ≤ 2 ^ 52 * 2 ^ 64 := Nat.mul_le_mul_left _ (le_of_lt hy2)
      have h2 : (2 : Nat) ^ 52 * 2 ^ 64 ≤ 1 * 2 ^ 200 := by norm_num
      have h3 : 1 * 2 ^ 200 ≤ t * 2 ^ 200 := Nat.mul_le_mul_right _ (by omega)
      omega
    have hsq := scaled_quotient t y (2 ^ normUp t y 256 0) ht hy (pow_pos (by decide) _) hs
    unfold Double.toInt64
    dsimp only
    rw [hsq]
    clear hsq
    generalize t / y = q at hq ⊢
    simp only [Bool.false_eq_true, if_false]
    rw [if_pos]
    constructor <;> omega

/-- The conversion of the process clock when `CLOCKS_PER_SEC` is a multiple of
one thousand and the tick count is below `2 ^ 53`. -/
theorem realCpu_thousand (t k : Nat) (ht : t < 2 ^ 53) (hk : 0 < k)
    (hk2 : 1000 * k < 2 ^ 63) :
    realCpu (t : Int) (1000 * k) = some ((t * 1000 / (1000 * k) : Nat) : Int) := by
  have hdiv : t * 1000 / (1000 * k) = t / k := by
    rw [Nat.mul_comm t 1000]
    exact Nat.mul_div_mul_left t k (by decide)
  have hk3 : 1000 * k / 1000 = k := Nat.mul_div_cancel_left k (by decide)
  unfold realCpu
  rw [hdiv, hk3, ofInt_exact t ht]
  by_cases hsmall : k < 2 ^ 53
  · rw [ofInt_exact k hsmall]
    obtain ⟨q, hq1, hq2⟩ := div_toInt64 t k ht hk (by omega)
    simp only [hq1, hq2]
  · obtain ⟨y, hy1, hy2, hy3⟩ := ofInt_large k (by omega)
    rw [hy1]
    obtain ⟨q, hq1, hq2⟩ := div_toInt64 t y ht (by omega) (by omega)
    simp only [hq1, hq2]
    rw [Nat.div_eq_of_lt (by omega), Nat.div_eq_of_lt (by omega)]

/-! ## Lemmas: the bound of the inner loop -/

theorem getD_set_ne (st : List Int) (j p : Nat) (v : Int) (h : j ≠ p) :
    (st.set j v).getD p 0 = st.getD p 0 := by
  simp only [List.getD_eq_getElem?_getD, List.getElem?_set_ne h]

/-- An inner loop that runs over the indices below `p` leaves entry `p` of the
array as it was, whatever the number `p` is. -/
theorem inner_loop_skips_bound (counters : List Int) (p : Nat) :
    ∀ (q : Nat), q ≤ p → ∀ (stats : List Int),
      ((List.range q).foldl
        (fun st j => st.set j (wrap64 (st.getD j 0 + counters.getD j 0))) stats).getD p 0
        = stats.getD p 0 := by
  intro q
  induction q with
  | zero => intro _ stats; rfl
  | succ q ih =>
    intro hq stats
    rw [List.range_succ, List.foldl_append]
    simp only [List.foldl_cons, List.foldl_nil]
    rw [getD_set_ne _ _ _ _ (by omega)]
    exact ih (by omega) stats

/-- The loop of `GetChannelsAccounting` never adds to the `PutSizeLimit` entry. -/
theorem addCounters_putSize (stats counters : List Int) :
    (addCounters stats counters).getD PutSizeLimit 0 = stats.getD PutSizeLimit 0 :=
  inner_loop_skips_bound counters PutSizeLimit PutSizeLimit (le_refl _) stats

/-! ## Channel aggregation -/

/-- C1: on the table of the spec's concrete aggregation example (one Regular
channel with counters 3 30 1 5, one TCP channel with counters 2 20 0 0),
`GetChannelsAccounting` returns 17 and writes `3 30 1 0 2 20 0 0`: the local
PutBytes field is 0, not the sum 5 of that counter over the local channels. -/
theorem C1_local_put_bytes_dropped :
    (GetChannelsAccounting
        ⟨some ⟨[⟨.ChannelRegular, [3, 30, 1, 5]⟩, ⟨.ChannelTCP, [2, 20, 0, 0]⟩]⟩,
          0, 0, "ok", 0, false⟩
        (List.replicate 64 NUL) 0 64).map (fun res => (res.1, cstr res.2 0))
      = some (17, "3 30 1 0 2 20 0 0".toList) := by
  decide

/-- C7: with an empty channel table and room for sixteen bytes,
`GetChannelsAccounting` returns 15 and leaves the C string `0 0 0 0 0 0 0 0`
at the start of its buffer. -/
theorem C7_empty_table_all_zero (nap : NaClApp) (mem : List Char) (buf : Nat) (size : Int)
    (hm : nap.system_manifest = some ⟨[]⟩)
    (hsize : 16 ≤ size) (hsize2 : size < 2 ^ 31) (hroom : buf + 16 ≤ mem.length) :
    ∃ mem1, GetChannelsAccounting nap mem buf size = some (15, mem1) ∧
      cstr mem1 buf = "0 0 0 0 0 0 0 0".toList := by
  have htext : formatLd (channelFields (List.replicate IOLimitsCount 0)
      (List.replicate IOLimitsCount 0)) = "0 0 0 0 0 0 0 0".toList := by decide
  have hsz : 16 ≤ sizeT size := by unfold sizeT; omega
  obtain ⟨pre, rest, rfl, rfl⟩ : ∃ pre rest, mem = pre ++ rest ∧ pre.length = buf :=
    ⟨mem.take buf, mem.drop buf, (List.take_append_drop _ _).symm,
      List.length_take_of_le (by omega)⟩
  have hrest : 16 ≤ rest.length := by
    simp only [List.length_append] at hroom
    omega
  have h15 : "0 0 0 0 0 0 0 0".toList.length = 15 := by decide
  have hfit := snprintf_fit pre rest "0 0 0 0 0 0 0 0".toList (sizeT size)
    (by rw [h15]; omega) (by rw [h15]; omega)
  unfold GetChannelsAccounting
  simp only [hm, gatherStats, htext]
  rw [if_neg (by omega), hfit]
  refine ⟨_, rfl, ?_⟩
  exact cstr_after pre _ _ (by decide)

/-- C9: `GetChannelsAccounting` returns the same value and leaves the same
memory for two channel tables that are rearrangements of one another, also
when a channel of unrecognized kind is among them. -/
theorem C9_table_order_irrelevant (cs1 cs2 : List ChannelDesc) (hp : cs1.Perm cs2)
    (heap_end stack_size : Nat) (zvm_state : String) (zvm_code : Int) (handle_signals : Bool)
    (mem : List Char) (buf : Nat) (size : Int) :
    GetChannelsAccounting ⟨some ⟨cs1⟩, heap_end, stack_size, zvm_state, zvm_code, handle_signals⟩
        mem buf size
      = GetChannelsAccounting
          ⟨some ⟨cs2⟩, heap_end, stack_size, zvm_state, zvm_code, handle_signals⟩ mem buf size := by
  unfold GetChannelsAccounting
  simp only
  rw [show List.replicate IOLimitsCount (0 : Int) = [0, 0, 0, 0] from rfl,
    gatherStats_perm hp 0 0 0 0 0 0 0 0]

/-- Witness of C9 on a table of three channels, the unrecognized one moved. -/
theorem C9_table_order_irrelevant_witness :
    List.Perm [(⟨.ChannelOther 7, [1, 1, 1, 1]⟩ : ChannelDesc), ⟨.ChannelTCP, [2, 20, 0, 0]⟩]
        [⟨.ChannelTCP, [2, 20, 0, 0]⟩, ⟨.ChannelOther 7, [1, 1, 1, 1]⟩] ∧
      GetChannelsAccounting
          ⟨some ⟨[⟨.ChannelOther 7, [1, 1, 1, 1]⟩, ⟨.ChannelTCP, [2, 20, 0, 0]⟩]⟩,
            0, 0, "ok", 0, false⟩ (List.replicate 64 NUL) 0 64
        = GetChannelsAccounting
          ⟨some ⟨[⟨.ChannelTCP, [2, 20, 0, 0]⟩, ⟨.ChannelOther 7, [1, 1, 1, 1]⟩]⟩,
            0, 0, "ok", 0, false⟩ (List.replicate 64 NUL) 0 64 :=
  ⟨List.Perm.swap _ _ _,
    C9_table_order_irrelevant _ _ (List.Perm.swap _ _ _) 0 0 "ok" 0 false _ 0 64⟩

/-- Witness of C7 on an array of sixty-four bytes. -/
theorem C7_empty_table_all_zero_witness :
    (⟨some ⟨[]⟩, 0, 0, "ok", 0, false⟩ : NaClApp).system_manifest = some ⟨[]⟩ ∧
      (16 : Int) ≤ 64 ∧ (64 : Int) < 2 ^ 31 ∧ 0 + 16 ≤ (List.replicate 64 NUL).length ∧
      ∃ mem1, GetChannelsAccounting ⟨some ⟨[]⟩, 0, 0, "ok", 0, false⟩
          (List.replicate 64 NUL) 0 64 = some (15, mem1) ∧
        cstr mem1 0 = "0 0 0 0 0 0 0 0".toList :=
  ⟨rfl, by decide, by decide, by decide,
    C7_empty_table_all_zero _ _ 0 64 rfl (by decide) (by decide) (by decide)⟩

/-- C3: when the table holds a channel of a kind other than Regular, Character
and TCP, `GetChannelsAccounting` returns 0 and leaves memory untouched, and
the text `AccountingDtor` leaves in the report array is the four system fields
followed by one space, with no channel field. -/
theorem C3_unsupported_kind_short_circuit (B : Build) (nap : NaClApp) (clock : Int)
    (manifest : SystemManifest) (r : Int) (acc mem : List Char) (buf : Nat) (size : Int)
    (hm : nap.system_manifest = some manifest)
    (hbad : ∃ ch ∈ manifest.channels, ∃ code, ch.source = .ChannelOther code)
    (hsize : size ≠ 0)
    (hlen : acc.length = B.BIG_ENOUGH_STRING)
    (hlo : 251 ≤ B.BIG_ENOUGH_STRING) (hhi : B.BIG_ENOUGH_STRING < 2 ^ 31)
    (hr : realCpu clock B.CLOCKS_PER_SEC = some r) :
    GetChannelsAccounting nap mem buf size = some (0, mem) ∧
      ∃ acc1, AccountingDtor B nap clock acc = some acc1 ∧
        GetAccountingInfo acc1
          = formatLd [r, 0, wrap64 ((nap.heap_end + nap.stack_size : Nat) : Int), 0] ++ [' '] := by
  have hg := gatherStats_unsupported manifest.channels hbad
    (List.replicate IOLimitsCount 0) (List.replicate IOLimitsCount 0)
  constructor
  · unfold GetChannelsAccounting
    simp only [hm, hg, if_neg hsize]
  · obtain ⟨acc1, h1, _, h3⟩ := AccountingDtor_text B nap clock acc manifest r hm hlen hlo hhi hr
    rw [hg] at h3
    exact ⟨acc1, h1, h3⟩

set_option maxRecDepth 100000 in
/-- Witness of C3 on the sample table extended by a channel of another kind. -/
theorem C3_unsupported_kind_short_circuit_witness :
    sampleAppOther.system_manifest
        = some ⟨sampleChannels ++ [⟨.ChannelOther 7, [9, 9, 9, 9]⟩]⟩ ∧
      (∃ ch ∈ sampleChannels ++ [(⟨.ChannelOther 7, [9, 9, 9, 9]⟩ : ChannelDesc)],
        ∃ code, ch.source = .ChannelOther code) ∧
      (64 : Int) ≠ 0 ∧
      (accountingInit sampleBuild).length = sampleBuild.BIG_ENOUGH_STRING ∧
      251 ≤ sampleBuild.BIG_ENOUGH_STRING ∧ sampleBuild.BIG_ENOUGH_STRING < 2 ^ 31 ∧
      realCpu 5000 sampleBuild.CLOCKS_PER_SEC = some 5 ∧
      (GetChannelsAccounting sampleAppOther (List.replicate 64 NUL) 0 64
          = some (0, List.replicate 64 NUL) ∧
        ∃ acc1, AccountingDtor sampleBuild sampleAppOther 5000 (accountingInit sampleBuild)
            = some acc1 ∧
          GetAccountingInfo acc1
            = formatLd [5, 0, wrap64 ((sampleAppOther.heap_end + sampleAppOther.stack_size : Nat)
                : Int), 0] ++ [' ']) :=
  ⟨rfl, ⟨⟨.ChannelOther 7, [9, 9, 9, 9]⟩, by decide, 7, rfl⟩, by decide, by decide, by decide,
    by decide, by decide,
    C3_unsupported_kind_short_circuit sampleBuild sampleAppOther 5000 _ 5 _ _ 0 64 rfl
      ⟨⟨.ChannelOther 7, [9, 9, 9, 9]⟩, by decide, 7, rfl⟩ (by decide) (by decide) (by decide)
      (by decide) (by decide)⟩

/-! ## The report record -/

set_option maxRecDepth 100000 in
/-- C2: for the sample sandbox (all channels of recognized kinds) and a clock
of 5000 ticks, the text `AccountingDtor` leaves in the report array is
`5 0 1114112 03 30 1 0 2 20 0 0`: eleven space-separated items, the swapBytes
field `0` and the localGets field `3` run together with no space between. -/
theorem C2_separator_overwritten :
    (AccountingDtor sampleBuild sampleApp 5000 (accountingInit sampleBuild)).map
        GetAccountingInfo
      = some "5 0 1114112 03 30 1 0 2 20 0 0".toList := by
  decide

/-- C6: in the build without CGROUPS, when `heap_end + stack_size` is below
`2 ^ 63`, `ReadSystemAccounting` formats the four values real_cpu, 0,
`heap_end + stack_size`, 0 in this order. -/
theorem C6_native_memory_metric (B : Build) (nap : NaClApp) (clock : Int)
    (manifest : SystemManifest) (r : Int) (mem : List Char) (buf : Nat) (size : Int)
    (hm : nap.system_manifest = some manifest) (hsize : 0 < size)
    (hr : realCpu clock B.CLOCKS_PER_SEC = some r)
    (hsum : nap.heap_end + nap.stack_size < 2 ^ 63) :
    ReadSystemAccounting B nap clock mem buf size
      = snprintf mem buf (sizeT size)
          (formatLd [r, 0, ((nap.heap_end + nap.stack_size : Nat) : Int), 0]) := by
  unfold ReadSystemAccounting
  simp only [hm, hr]
  rw [if_neg (by omega), wrap64_of_range _ (by omega) (by omega)]

set_option maxRecDepth 100000 in
/-- Witness of C6 at `heap_end = 1048576` and `stack_size = 65536`: the third
field is 1114112, the second and fourth are 0. -/
theorem C6_native_memory_metric_witness :
    sampleApp.system_manifest = some ⟨sampleChannels⟩ ∧ (0 : Int) < 1024 ∧
      realCpu 5000 sampleBuild.CLOCKS_PER_SEC = some 5 ∧
      sampleApp.heap_end + sampleApp.stack_size < 2 ^ 63 ∧
      ReadSystemAccounting sampleBuild sampleApp 5000 (accountingInit sampleBuild) 0 1024
        = snprintf (accountingInit sampleBuild) 0 (sizeT 1024)
            (formatLd [5, 0, ((sampleApp.heap_end + sampleApp.stack_size : Nat) : Int), 0]) ∧
      formatLd [5, 0, ((sampleApp.heap_end + sampleApp.stack_size : Nat) : Int), 0]
        = "5 0 1114112 0".toList :=
  ⟨rfl, by decide, by decide, by decide,
    C6_native_memory_metric sampleBuild sampleApp 5000 _ 5 _ 0 1024 rfl (by decide)
      (by decide) (by decide),
    by decide⟩

/-- C8 as stated fails: with `CLOCKS_PER_SEC = 1500` and a clock of 3000
ticks the first field `ReadSystemAccounting` writes is 3000, while
`ticks * 1000 / ticksPerSecond` is 2000. -/
theorem C8_counterexample :
    (ReadSystemAccounting ⟨64, [], 1500⟩ ⟨some ⟨[]⟩, 0, 0, "ok", 0, false⟩ 3000
        (List.replicate 64 NUL) 0 64).map (fun res => cstr res.2 0)
      = some "3000 0 0 0".toList ∧
    (3000 * 1000 / 1500 : Nat) = 2000 := by
  decide

/-- C8, amended: when `CLOCKS_PER_SEC` is a positive multiple of 1000 (and a
value of the 64-bit `clock_t`) and the tick count is non-negative and below
`2 ^ 53`, the first field `ReadSystemAccounting` formats is
`ticks * 1000 / CLOCKS_PER_SEC`, truncated. -/
theorem C8_real_cpu_ms (B : Build) (nap : NaClApp) (ticks k : Nat)
    (manifest : SystemManifest) (mem : List Char) (buf : Nat) (size : Int)
    (hm : nap.system_manifest = some manifest) (hsize : 0 < size)
    (hcps : B.CLOCKS_PER_SEC = 1000 * k) (hk : 0 < k) (hk2 : 1000 * k < 2 ^ 63)
    (ht : ticks < 2 ^ 53) :
    ReadSystemAccounting B nap (ticks : Int) mem buf size
      = snprintf mem buf (sizeT size)
          (formatLd [((ticks * 1000 / B.CLOCKS_PER_SEC : Nat) : Int), 0,
            wrap64 ((nap.heap_end + nap.stack_size : Nat) : Int), 0]) := by
  unfold ReadSystemAccounting
  simp only [hm, hcps, realCpu_thousand ticks k ht hk hk2]
  rw [if_neg (by omega)]

/-- Beyond 53 bits the conversion to `double` rounds: with `CLOCKS_PER_SEC = 1000`
a clock of `2 ^ 53 + 1` ticks is reported as `2 ^ 53`, and with the microsecond
clock 17592186044416999 ticks are reported as 17592186044417 ms. -/
theorem realCpu_beyond_53_bits :
    realCpu (2 ^ 53 + 1) 1000 = some (2 ^ 53) ∧
      realCpu 17592186044416999 1000000 = some 17592186044417 := by
  decide

/-- Witness of C8, amended, at 1234567 ticks of a microsecond clock. -/
theorem C8_real_cpu_ms_witness :
    sampleApp.system_manifest = some ⟨sampleChannels⟩ ∧ (0 : Int) < 64 ∧
      sampleBuild.CLOCKS_PER_SEC = 1000 * 1000 ∧ 0 < 1000 ∧ 1000 * 1000 < 2 ^ 63 ∧
      1234567 < 2 ^ 53 ∧
      ReadSystemAccounting sampleBuild sampleApp ((1234567 : Nat) : Int)
          (List.replicate 64 NUL) 0 64
        = snprintf (List.replicate 64 NUL) 0 (sizeT 64)
            (formatLd [((1234567 * 1000 / sampleBuild.CLOCKS_PER_SEC : Nat) : Int), 0,
              wrap64 ((sampleApp.heap_end + sampleApp.stack_size : Nat) : Int), 0]) :=
  ⟨rfl, by decide, by decide, by decide, by decide, by decide,
    C8_real_cpu_ms sampleBuild sampleApp 1234567 1000 _ _ 0 64 rfl (by decide) (by decide)
      (by decide) (by decide) (by decide)⟩

set_option maxRecDepth 100000 in
/-- C5 as stated fails: after a first pass over the sample sandbox at 5000
ticks the report is `5 0 1114112 03 30 1 0 2 20 0 0`; a second pass, with the
Regular channel's counters and the clock advanced, leaves
`9 0 1114112 04 40 1 0 2 20 0 0`. -/
theorem C5_counterexample :
    (runOps sampleBuild [.Dtor sampleApp 5000] (accountingInit sampleBuild)).map
        GetAccountingInfo
      = some "5 0 1114112 03 30 1 0 2 20 0 0".toList ∧
    (runOps sampleBuild [.Dtor sampleApp 5000, .Info, .Dtor sampleAppLater 9000]
        (accountingInit sampleBuild)).map GetAccountingInfo
      = some "9 0 1114112 04 40 1 0 2 20 0 0".toList := by
  decide

/-- C5, amended: a second pass of `AccountingDtor` is not suppressed; it
succeeds and rewrites the report from the state it runs in. The text after the
second pass is the text one pass alone over that second state leaves, whatever
the first pass wrote (so it repeats the first text when nothing changed). -/
theorem C5_second_pass_rewrites (B : Build) (nap1 nap2 : NaClApp) (clock1 clock2 : Int)
    (m1 m2 : SystemManifest) (r1 r2 : Int) (acc : List Char)
    (hm1 : nap1.system_manifest = some m1) (hm2 : nap2.system_manifest = some m2)
    (hlen : acc.length = B.BIG_ENOUGH_STRING)
    (hlo : 251 ≤ B.BIG_ENOUGH_STRING) (hhi : B.BIG_ENOUGH_STRING < 2 ^ 31)
    (hr1 : realCpu clock1 B.CLOCKS_PER_SEC = some r1)
    (hr2 : realCpu clock2 B.CLOCKS_PER_SEC = some r2) :
    ∃ first second alone,
      AccountingDtor B nap1 clock1 acc = some first ∧
      AccountingDtor B nap2 clock2 first = some second ∧
      AccountingDtor B nap2 clock2 acc = some alone ∧
      GetAccountingInfo second = GetAccountingInfo alone := by
  obtain ⟨first, h1, hl1, _⟩ := AccountingDtor_text B nap1 clock1 acc m1 r1 hm1 hlen hlo hhi hr1
  obtain ⟨second, h2, _, t2⟩ :=
    AccountingDtor_text B nap2 clock2 first m2 r2 hm2 hl1 hlo hhi hr2
  obtain ⟨alone, h3, _, t3⟩ := AccountingDtor_text B nap2 clock2 acc m2 r2 hm2 hlen hlo hhi hr2
  exact ⟨first, second, alone, h1, h2, h3, by rw [t2, t3]⟩

set_option maxRecDepth 100000 in
/-- Witness of C5, amended, on the two sample states. -/
theorem C5_second_pass_rewrites_witness :
    sampleApp.system_manifest = some ⟨sampleChannels⟩ ∧
      sampleAppLater.system_manifest
        = some ⟨[⟨.ChannelRegular, [4, 40, 1, 0]⟩, ⟨.ChannelTCP, [2, 20, 0, 0]⟩]⟩ ∧
      (accountingInit sampleBuild).length = sampleBuild.BIG_ENOUGH_STRING ∧
      251 ≤ sampleBuild.BIG_ENOUGH_STRING ∧ sampleBuild.BIG_ENOUGH_STRING < 2 ^ 31 ∧
      realCpu 5000 sampleBuild.CLOCKS_PER_SEC = some 5 ∧
      realCpu 9000 sampleBuild.CLOCKS_PER_SEC = some 9 ∧
      ∃ first second alone,
        AccountingDtor sampleBuild sampleApp 5000 (accountingInit sampleBuild) = some first ∧
        AccountingDtor sampleBuild sampleAppLater 9000 first = some second ∧
        AccountingDtor sampleBuild sampleAppLater 9000 (accountingInit sampleBuild)
          = some alone ∧
        GetAccountingInfo second = GetAccountingInfo alone :=
  ⟨rfl, rfl, by decide, by decide, by decide, by decide, by decide,
    C5_second_pass_rewrites sampleBuild sampleApp sampleAppLater 5000 9000 _ _ 5 9 _ rfl rfl
      (by decide) (by decide) (by decide) (by decide) (by decide)⟩

/-- Operations other than `AccountingDtor` leave the array as it is. -/
theorem runOps_without_dtor (B : Build) (ops : List AccountingOp)
    (h : ∀ op ∈ ops, op.isDtor = false) (acc : List Char) : runOps B ops acc = some acc := by
  induction ops with
  | nil => rfl
  | cons op rest ih =>
    have hrest := ih (fun o ho => h o (List.mem_cons_of_mem _ ho))
    have hop := h op (List.mem_cons_self _ _)
    cases op with
    | Ctor nap => simpa [runOps, AccountingOp.apply] using hrest
    | Info => simpa [runOps, AccountingOp.apply] using hrest
    | Dtor nap clock => simp [AccountingOp.isDtor] at hop

/-- C10: starting from the initialised array, after any sequence of calls of
`AccountingCtor` and `GetAccountingInfo` (no call of `AccountingDtor`) the array
is unchanged and `GetAccountingInfo` returns exactly `DEFAULT_ACCOUNTING`, which
is not empty, for a baseline as the spec documents it. -/
theorem C10_baseline_before_dtor (B : Build) (ops : List AccountingOp)
    (hB : B.baselineDocumented) (hops : ∀ op ∈ ops, op.isDtor = false) :
    runOps B ops (accountingInit B) = some (accountingInit B) ∧
      GetAccountingInfo (accountingInit B) = B.DEFAULT_ACCOUNTING ∧
      GetAccountingInfo (accountingInit B) ≠ [] := by
  obtain ⟨hne, hnul, hfit⟩ := hB
  have htext : GetAccountingInfo (accountingInit B) = B.DEFAULT_ACCOUNTING := by
    unfold GetAccountingInfo accountingInit
    obtain ⟨n, hn⟩ : ∃ n, B.BIG_ENOUGH_STRING - B.DEFAULT_ACCOUNTING.length = n + 1 :=
      ⟨B.BIG_ENOUGH_STRING - B.DEFAULT_ACCOUNTING.length - 1, by omega⟩
    rw [hn, List.replicate_succ]
    have := cstr_after [] B.DEFAULT_ACCOUNTING (List.replicate n NUL) hnul
    simpa using this
  exact ⟨runOps_without_dtor B ops hops _, htext, by rw [htext]; exact hne⟩

/-- Witness of C10 on the sample build. -/
theorem C10_baseline_before_dtor_witness :
    sampleBuild.baselineDocumented ∧
      (∀ op ∈ [AccountingOp.Ctor sampleApp, .Info, .Info], op.isDtor = false) ∧
      (runOps sampleBuild [.Ctor sampleApp, .Info, .Info] (accountingInit sampleBuild)
          = some (accountingInit sampleBuild) ∧
        GetAccountingInfo (accountingInit sampleBuild) = sampleBuild.DEFAULT_ACCOUNTING ∧
        GetAccountingInfo (accountingInit sampleBuild) ≠ []) :=
  ⟨by decide, by simp [AccountingOp.isDtor],
    C10_baseline_before_dtor sampleBuild _ (by decide) (by simp [AccountingOp.isDtor])⟩

/-! ## Finalization order -/

/-- C4 as stated fails: for a sandbox that ends in a state other than "ok" with
signal handling on, `NaClAbort` calls `NaClSignalHandlerFini` and
`NaClAllModulesFini` at the end of the dump, before `SystemManifestDtor` and
`ProxyReport`. -/
theorem C4_counterexample :
    NaClAbort sampleAppFaulted
      = [.Log "exiting -- printing NaClApp details\n", .NaClAppPrintDetails,
         .Log "Dumping vmmap", .PrintVmmap, .Log "Done",
         .NaClSignalHandlerFini, .NaClAllModulesFini,
         .SystemManifestDtor, .ProxyReport, .Exit 11] := by
  decide

/-- C4, amended: `NaClExit` and `NaClAbort` end with `SystemManifestDtor`, then
`ProxyReport`, then the process exit, and these three happen nowhere earlier.
What precedes them is nothing when `zvm_state` is "ok", and otherwise the
dump followed by `NaClSignalHandlerFini` (only with `handle_signals`) and
`NaClAllModulesFini`. -/
theorem C4_finalizer_order (gnap : NaClApp) (err_code : Int) :
    ∃ before : List Effect,
      NaClExit gnap err_code = before ++ [.SystemManifestDtor, .ProxyReport, .Exit err_code] ∧
      NaClAbort gnap = before ++ [.SystemManifestDtor, .ProxyReport, .Exit gnap.zvm_code] ∧
      Effect.SystemManifestDtor ∉ before ∧ Effect.ProxyReport ∉ before ∧
      (∀ code, Effect.Exit code ∉ before) ∧
      before = (if gnap.zvm_state = "ok" then []
        else [.Log "exiting -- printing NaClApp details\n", .NaClAppPrintDetails,
              .Log "Dumping vmmap", .PrintVmmap, .Log "Done"]
          ++ (if gnap.handle_signals then [.NaClSignalHandlerFini] else [])
          ++ [.NaClAllModulesFini]) := by
  refine ⟨if gnap.zvm_state ≠ "ok" then FinalDump gnap else [], ?_, ?_, ?_, ?_, ?_, ?_⟩
  · simp [NaClExit, Finalizer]
  · simp [NaClAbort, Finalizer]
  · by_cases h : gnap.zvm_state = "ok" <;> cases hs : gnap.handle_signals <;>
      simp [h, hs, FinalDump]
  · by_cases h : gnap.zvm_state = "ok" <;> cases hs : gnap.handle_signals <;>
      simp [h, hs, FinalDump]
  · intro code
    by_cases h : gnap.zvm_state = "ok" <;> cases hs : gnap.handle_signals <;>
      simp [h, hs, FinalDump]
  · by_cases h : gnap.zvm_state = "ok" <;> simp [h, FinalDump]

end ZeroVM
